import Mathlib

/-!
Shallow embedding of the Gießen events aggregator (a Node.js program) and
proofs about its core algorithms: date-range resolution (`getDateRange`),
deduplication/merging and sorting (`dedup`), provider field mappings
(Ticketmaster, Meetup JSON-LD, Deskline normalization), the giessen.de
static-HTML item pipeline, and the category filter from `main`.

Modelling conventions:
* JS strings are Lean `String`s; operations that do not kernel-reduce are
  re-implemented over `List Char`.  JS string indices are UTF-16 units while
  Lean counts code points; the two agree on every string this program builds
  (no astral-plane characters).
* JS `null`/`undefined` fields are `Option`; JS truthiness of a string field
  is `truthyS` (`null`/`undefined`/`""` are falsy).
* JS numbers arising from `Date.getTime()` are modelled by `JsNum`:
  a finite integer count of milliseconds, `inf` for `Infinity`, or `nan`
  for the `NaN` of an invalid date.  The process-local timezone is taken to
  be UTC, so `date-fns` local-day arithmetic is arithmetic mod 86400000 ms.
* `new Date(string)` / `date-fns parseISO` are modelled for the string
  shapes this program produces and the spec names: complete calendar dates
  `YYYY-MM-DD`, optionally followed by `THH:MM[:SS]` and an optional `Z`
  (both interpreted in UTC, consistent with the UTC-timezone convention).
-/

namespace GiEvents

/-- ASCII whitespace recognized by the JS `\s` class (the code points that
occur in this program's data). -/
def isWs (c : Char) : Bool :=
  c == ' ' || c == '\t' || c == '\n' || c == '\r' || c == '\x0b' || c == '\x0c'

/-- Models `str.replace(/\s+/g, ' ')`: every maximal whitespace run becomes a
single space.  The flag records whether the previous character was whitespace. -/
def collapseGo (prevWs : Bool) : List Char → List Char
  | [] => []
  | c :: rest =>
    if isWs c then (if prevWs then [] else [' ']) ++ collapseGo true rest
    else c :: collapseGo false rest

def collapseWsL (l : List Char) : List Char := collapseGo false l

/-- Models JS `String.prototype.trim()` (ASCII whitespace). -/
def jsTrimL (l : List Char) : List Char :=
  ((l.dropWhile isWs).reverse.dropWhile isWs).reverse

def jsTrimS (s : String) : String := String.mk (jsTrimL s.toList)

/-- Models `$el.text().replace(/\s+/g, ' ').trim()`. -/
def collapseTrim (s : String) : String := String.mk (jsTrimL (collapseWsL s.toList))

/-- JS `toLowerCase()` restricted to the case mappings that can land inside the
character class `[a-zäöüß0-9]` kept by the dedup key (ASCII letters, the
umlauts, capital sharp s U+1E9E, and the Kelvin sign U+212A); all other
characters are left unchanged, matching what the subsequent filter observes. -/
def jsToLower (c : Char) : Char :=
  if 'A' ≤ c ∧ c ≤ 'Z' then Char.ofNat (c.toNat + 32)
  else if c = 'Ä' then 'ä'
  else if c = 'Ö' then 'ö'
  else if c = 'Ü' then 'ü'
  else if c = Char.ofNat 0x1e9e then 'ß'
  else if c = Char.ofNat 0x212a then 'k'
  else c

/-- The character class `[a-zäöüß0-9]` of the dedup key regex. -/
def keyChar (c : Char) : Bool :=
  ('a' ≤ c && c ≤ 'z') || ('0' ≤ c && c ≤ '9') ||
  c == 'ä' || c == 'ö' || c == 'ü' || c == 'ß'

/-- JS truthiness of a possibly-missing string (`undefined`/`null`/`""` falsy). -/
def truthyS : Option String → Bool
  | none => false
  | some s => s ≠ ""

/-- A JS number produced by `Date.prototype.getTime()` or the `Infinity`
literal: finite milliseconds, positive infinity, or `NaN`. -/
inductive JsNum where
  | fin (t : Int)
  | inf
  | nan
deriving DecidableEq, Repr

/-- JS `<` on such numbers: any comparison against `NaN` is false, and
`Infinity` is greater than every finite value. -/
def jsLtB : JsNum → JsNum → Bool
  | .fin a, .fin b => a < b
  | .fin _, .inf => true
  | _, _ => false

-- ── Calendar arithmetic (UTC model) ─────────────────────────────────────

def msPerDay : Int := 86400000

/-- Midnight of the civil day containing `t` (UTC model of `startOfDay`). -/
def startOfDayMs (t : Int) : Int := t - t % msPerDay

/-- Time 23:59:59.999 of the civil day containing `t` (model of `endOfDay`). -/
def endOfDayMs (t : Int) : Int := startOfDayMs t + (msPerDay - 1)

/-- Model of `date-fns addDays` under the UTC convention. -/
def addDaysMs (t : Int) (n : Int) : Int := t + n * msPerDay

/-- Days since the epoch of the civil day containing `t`. -/
def epochDay (t : Int) : Int := (t - t % msPerDay) / msPerDay

/-- Model of JS `Date.prototype.getDay()`: 0 = Sunday … 6 = Saturday.
1970-01-01 was a Thursday (day 4). -/
def jsGetDay (t : Int) : Int := (epochDay t + 4) % 7

def digitVal (c : Char) : Nat := c.toNat - '0'.toNat

def natOfDigits (l : List Char) : Nat := l.foldl (fun a c => a * 10 + digitVal c) 0

/-- Exactly `n` decimal digits; returns them and the remaining input. -/
def takeDigits : Nat → List Char → Option (List Char × List Char)
  | 0, l => some ([], l)
  | _ + 1, [] => none
  | n + 1, c :: rest =>
    if c.isDigit then (takeDigits n rest).map (fun p => (c :: p.1, p.2)) else none

def isLeap (y : Nat) : Bool := (y % 4 == 0 && y % 100 != 0) || y % 400 == 0

def daysInMonth (y m : Nat) : Nat :=
  if m = 2 then (if isLeap y then 29 else 28)
  else if m = 4 ∨ m = 6 ∨ m = 9 ∨ m = 11 then 30
  else 31

/-- Days from 1970-01-01 to the civil date `y-m-d` (proleptic Gregorian,
Hinnant's algorithm; `/` on `Int` here is floor division since all divisors
are positive). -/
def civilDays (y m d : Nat) : Int :=
  let y1 : Int := if m ≤ 2 then (y : Int) - 1 else (y : Int)
  let era : Int := y1 / 400
  let yoe : Int := y1 - era * 400
  let doy : Int := (153 * ((m : Int) + (if 2 < m then -3 else 9)) + 2) / 5 + (d : Int) - 1
  let doe : Int := yoe * 365 + yoe / 4 - yoe / 100 + doy
  era * 146097 + doe - 719468

/-- Parses a leading `YYYY-MM-DD` (calendar-validated) to epoch milliseconds,
returning the rest of the input. -/
def parseYMD (l : List Char) : Option (Int × List Char) :=
  match takeDigits 4 l with
  | some (ys, '-' :: r1) =>
    match takeDigits 2 r1 with
    | some (mos, '-' :: r2) =>
      match takeDigits 2 r2 with
      | some (ds, rest) =>
        let y := natOfDigits ys
        let mo := natOfDigits mos
        let d := natOfDigits ds
        if 1 ≤ mo ∧ mo ≤ 12 ∧ 1 ≤ d ∧ d ≤ daysInMonth y mo then
          some (civilDays y mo d * msPerDay, rest)
        else none
      | _ => none
    | _ => none
  | _ => none

/-- Model of `date-fns parseISO` on complete calendar dates (the form the
spec admits); anything else is an invalid date, i.e. `none`. -/
def parseISO (s : String) : Option Int :=
  match parseYMD s.toList with
  | some (t, []) => some t
  | _ => none

/-- Model of `new Date(string).getTime()` for the date / date-time strings
this program constructs; `none` is an invalid date (`NaN`). -/
def jsDateParse (s : String) : Option Int :=
  match parseYMD s.toList with
  | some (t, []) => some t
  | some (t, 'T' :: r) =>
    match takeDigits 2 r with
    | some (hs, ':' :: r2) =>
      match takeDigits 2 r2 with
      | some (mis, rest2) =>
        let secPart : Option (Nat × List Char) :=
          match rest2 with
          | ':' :: r3 => (takeDigits 2 r3).map (fun p => (natOfDigits p.1, p.2))
          | _ => some (0, rest2)
        match secPart with
        | some (sec, rest3) =>
          let h := natOfDigits hs
          let mi := natOfDigits mis
          if (rest3 = [] ∨ rest3 = ['Z']) ∧ h ≤ 23 ∧ mi ≤ 59 ∧ sec ≤ 59 then
            some (t + (h : Int) * 3600000 + (mi : Int) * 60000 + (sec : Int) * 1000)
          else none
        | none => none
      | _ => none
    | _ => none
  | _ => none

/-- Value of `new Date(s).getTime()` as a `JsNum`. -/
def jsTimeOf (s : String) : JsNum :=
  match jsDateParse s with
  | some t => .fin t
  | none => .nan

-- ── Date-range resolution (`getDateRange`, index.js) ────────────────────

/-- The `{ start, end }` object returned by `getDateRange`.  Each bound is a
JS `Date`; `none` models an Invalid Date (`NaN` timestamp).  The `end` field
is called `stop` because `end` is a Lean keyword. -/
structure DateRange where
  start : Option Int
  stop : Option Int
deriving DecidableEq, Repr

def containsChar (s : String) (c : Char) : Bool := s.toList.contains c

/-- Model of JS `String.prototype.split` with a single-character separator. -/
def splitOnChar (sep : Char) : List Char → List (List Char)
  | [] => [[]]
  | c :: rest =>
    let r := splitOnChar sep rest
    if c = sep then [] :: r
    else
      match r with
      | h :: t => (c :: h) :: t
      | [] => [[c]]

/-- Embedding of `getDateRange(dateStr)` (index.js:60-78).  `nowMs` is the
timestamp of `new Date()`; `dateStr` is `opts.date` (possibly `null`).
Note the source never throws: malformed components simply produce Invalid
Dates in the returned range. -/
def getDateRange (nowMs : Int) (dateStr : Option String) : DateRange :=
  if truthyS dateStr = false then
    ⟨some (startOfDayMs nowMs), some (endOfDayMs (addDaysMs nowMs 7))⟩
  else
    let ds := dateStr.getD ""
    if containsChar ds ':' then
      let parts := splitOnChar ':' ds.toList
      let s := String.mk (parts.headD [])
      let e := String.mk ((parts.drop 1).headD [])
      ⟨(parseISO s).map startOfDayMs, (parseISO e).map endOfDayMs⟩
    else if ds = "today" then
      ⟨some (startOfDayMs nowMs), some (endOfDayMs nowMs)⟩
    else if ds = "weekend" then
      let r := (6 - jsGetDay nowMs + 7) % 7
      let k := if r = 0 then 7 else r
      let sat := addDaysMs nowMs k
      ⟨some (startOfDayMs sat), some (endOfDayMs (addDaysMs sat 1))⟩
    else
      ⟨(parseISO ds).map startOfDayMs, (parseISO ds).map endOfDayMs⟩

-- ── Canonical event record ──────────────────────────────────────────────

/-- The canonical event record every provider produces (the object literals
in `fetchTicketmaster`, `fetchGiessenDe`, `fetchMeetup`, `fetchDeskline`).
`Option` fields model `null`/`undefined`. -/
structure Event where
  name : Option String
  date : Option String
  venue : Option String
  address : Option String
  type : String
  url : Option String
  price : Option String
  source : String
  description : Option String
deriving DecidableEq, Repr

-- ── Deduplicate & sort (`dedup`, index.js:267-286) ──────────────────────

/-- The identity key: `(e.name || '').toLowerCase().replace(/[^a-zäöüß0-9]/g,
'').slice(0, 40) + '|' + (e.date || '').slice(0, 10)`. -/
def dedupKey (e : Event) : String :=
  String.mk ((((e.name.getD "").toList.map jsToLower).filter keyChar).take 40)
    ++ "|" ++ String.mk ((e.date.getD "").toList.take 10)

/-- One merge step: the stored canonical record `ex` absorbs duplicate `e`
(`if (!ex.price && e.price) ex.price = e.price;` etc., and
`ex.source += ', ' + e.source`). -/
def mergeInto (ex e : Event) : Event :=
  let ex1 := if truthyS ex.price = false ∧ truthyS e.price = true
             then { ex with price := e.price } else ex
  let ex2 := if truthyS ex1.venue = false ∧ truthyS e.venue = true
             then { ex1 with venue := e.venue } else ex1
  { ex2 with source := ex2.source ++ ", " ++ e.source }

/-- Models `seen.get(key)` on the insertion-ordered map (JS `Map` keys are unique). -/
def lookupKey (m : List (String × Event)) (k : String) : Option Event :=
  (m.find? (fun p => p.1 = k)).map (fun p => p.2)

/-- Mutation of the record stored under `k` (unique by the `Map` invariant). -/
def updateKey (m : List (String × Event)) (k : String) (e : Event) :
    List (String × Event) :=
  m.map (fun p => if p.1 = k then (p.1, mergeInto p.2 e) else p)

/-- The `for (const e of events)` loop of `dedup`, with the `Map` as an
insertion-ordered association list. -/
def dedupGo (m : List (String × Event)) : List Event → List (String × Event)
  | [] => m
  | e :: rest =>
    let k := dedupKey e
    match lookupKey m k with
    | none => dedupGo (m ++ [(k, e)]) rest
    | some _ => dedupGo (updateKey m k e) rest

/-- Models `[...seen.values()]`: one merged record per key, in first-occurrence
order. -/
def dedupMerged (events : List Event) : List Event :=
  (dedupGo [] events).map (fun p => p.2)

/-- The sort key `a.date ? new Date(a.date).getTime() : Infinity`. -/
def eventTime (e : Event) : JsNum :=
  match e.date with
  | none => .inf
  | some s => if s = "" then .inf else jsTimeOf s

/-- Stable insertion of `x` into an already-sorted list: `x` goes in front of
the first element strictly greater than it (per the JS comparator
`da - db`, under which any comparison involving `NaN` acts as a tie). -/
def insertByDate (x : Event) : List Event → List Event
  | [] => [x]
  | y :: ys =>
    if jsLtB (eventTime x) (eventTime y) then x :: y :: ys
    else y :: insertByDate x ys

/-- Model of `[...].sort((a, b) => da - db)`.  `Array.prototype.sort` is
stable (ES2019); on inputs whose dates all parse or are absent the
comparator is consistent, the stable sort is unique, and any stable sorting
algorithm (here: insertion sort) is an exact model.  A `NaN` key makes the
comparator inconsistent and ECMAScript then leaves the order
implementation-defined; the model fixes one stable-insertion outcome, so
order-dependent theorems restrict themselves to `NaN`-free inputs. -/
def sortByDate (l : List Event) : List Event :=
  l.foldl (fun acc x => insertByDate x acc) []

/-- Embedding of `dedup(events)` (index.js:267-286). -/
def dedup (events : List Event) : List Event :=
  sortByDate (dedupMerged events)

/-- The value of each *input* record after `dedup` returns, position by
position: in JS the `Map` stores references, so the first occurrence of each
key is mutated in place by every later duplicate (price/venue fill and
source append), while the other records are left untouched. -/
def dedupPostGo (prev : List Event) : List Event → List Event
  | [] => []
  | e :: rest =>
    (if prev.any (fun p => dedupKey p = dedupKey e) then e
     else (rest.filter (fun x => dedupKey x = dedupKey e)).foldl mergeInto e)
    :: dedupPostGo (prev ++ [e]) rest

def dedupPost (events : List Event) : List Event := dedupPostGo [] events

-- ── Provider: Ticketmaster (`fetchTicketmaster`, index.js:126-136) ──────

/-- JS `a || b` on possibly-missing strings (`""` is falsy). -/
def jsOrS (a b : Option String) : Option String := if truthyS a then a else b

/-- Full-string lowercasing (same per-character mapping as the key). -/
def jsToLowerS (s : String) : String := String.mk (s.toList.map jsToLower)

/-- Models `array.join(', ')`. -/
def joinComma : List String → String
  | [] => ""
  | [x] => x
  | x :: rest => x ++ ", " ++ joinComma rest

/-- Models `s.slice(0, n)`. -/
def jsSlice (n : Nat) (s : String) : String := String.mk (s.toList.take n)

/-- The fields of one Ticketmaster API response item that the mapping reads.
`priceRanges` is the optional array of price ranges (each contributing its
`min`; prices are modelled as integers). -/
structure TmItem where
  name : Option String
  dateTime : Option String
  localDate : Option String
  venueName : Option String
  addressLine1 : Option String
  cityName : Option String
  segmentName : Option String
  url : Option String
  priceRanges : Option (List Int)
  info : Option String
  pleaseNote : Option String
deriving DecidableEq, Repr

/-- The per-item object literal of `fetchTicketmaster` (index.js:126-136).
There is no name check: `name: e.name` is a plain passthrough. -/
def tmMap (e : TmItem) : Event :=
  { name := e.name
    date := jsOrS e.dateTime (jsOrS e.localDate none)
    venue := jsOrS e.venueName none
    address := some (joinComma ((([e.addressLine1, e.cityName].filterMap id).filter
      (fun s => s ≠ ""))))
    type := (match e.segmentName with
             | none => "other"
             | some s => if jsToLowerS s = "" then "other" else jsToLowerS s)
    url := e.url
    price := (match e.priceRanges with
              | none => none
              | some l => some ("Ab " ++ (match l.head? with
                                          | some m => toString m
                                          | none => "undefined") ++ "€"))
    source := "ticketmaster"
    description := (let base := (jsOrS e.info (jsOrS e.pleaseNote (some ""))).getD ""
                    let sl := jsSlice 200 base
                    if sl = "" then none else some sl) }

/-- Models `data._embedded.events.map(e => ({...}))`: the events of the returned
`ProviderResult` are exactly the mapped items — nothing is dropped. -/
def tmMapEvents (items : List TmItem) : List Event := items.map tmMap

-- ── Provider: Meetup JSON-LD (`fetchMeetup`, index.js variant:162-175) ──

/-- One JSON-LD object scanned by the Meetup adapter. -/
structure LdItem where
  atType : Option String
  name : Option String
  startDate : Option String
  locationName : Option String
  streetAddress : Option String
  url : Option String
  isAccessibleForFree : Bool
  description : Option String
deriving DecidableEq, Repr

/-- The JSON-LD branch of `fetchMeetup`: items whose `@type` is `Event` or
`SocialEvent` are mapped (with `type: 'meetup'`), without any name check. -/
def meetupMapLd (items : List LdItem) : List Event :=
  items.filterMap (fun it =>
    if it.atType = some "Event" ∨ it.atType = some "SocialEvent" then
      some { name := it.name
             date := jsOrS it.startDate none
             venue := jsOrS it.locationName none
             address := jsOrS it.streetAddress none
             type := "meetup"
             url := jsOrS it.url none
             price := if it.isAccessibleForFree then some "Kostenlos" else none
             source := "meetup"
             description := (let base := (jsOrS it.description (some "")).getD ""
                             let sl := jsSlice 200 base
                             if sl = "" then none else some sl) }
    else none)

-- ── Provider: Deskline (`fetchDeskline`, deskline.js:147-157) ───────────

/-- A raw record extracted inside the rendered page / frame, before
normalization. -/
structure DeskRaw where
  name : Option String
  date : Option String
  venue : Option String
  address : Option String
  url : Option String
  description : Option String
deriving DecidableEq, Repr

structure DeskCity where
  name : String
  source : String
deriving DecidableEq, Repr

/-- The normalization map of `fetchDeskline`: every emitted event gets
`type: 'other'`, `price: null`, the city's source identifier, and the city
name as fallback address. -/
def desklineNormalize (city : DeskCity) (raw : List DeskRaw) : List Event :=
  raw.map (fun e =>
    { name := e.name
      date := e.date
      venue := e.venue
      address := if truthyS e.address then e.address else some city.name
      type := "other"
      url := e.url
      price := none
      source := city.source
      description := e.description })

-- ── Category filter (`main`, index.js:352-354) ──────────────────────────

/-- Models `if (opts.type !== 'all') allEvents = allEvents.filter(e => e.type ===
opts.type || e.type === 'other')`. -/
def typeFilter (t : String) (events : List Event) : List Event :=
  if t ≠ "all" then events.filter (fun e => e.type = t ∨ e.type = "other")
  else events

-- ── giessen.de scraper (`fetchGiessenDe`, index.js:146-250) ─────────────
-- The regexes of the adapter are modelled by explicit scanners over
-- `List Char` that reproduce the JS engine's leftmost-match rule and the
-- greedy/lazy backtracking the particular patterns need.

/-- Literal match of a pattern prefix; returns the rest of the input. -/
def litM : List Char → List Char → Option (List Char)
  | [], l => some l
  | _ :: _, [] => none
  | p :: ps, c :: cs => if c = p then litM ps cs else none

def litS (pat : String) (l : List Char) : Option (List Char) := litM pat.toList l

/-- Matcher for `\s*` (greedy; the following token is never whitespace where used). -/
def wsStar (l : List Char) : List Char := l.dropWhile isWs

/-- Matcher for `\s+` (greedy; same remark). -/
def wsPlus (l : List Char) : Option (List Char) :=
  match l with
  | c :: rest => if isWs c then some (rest.dropWhile isWs) else none
  | [] => none

/-- Leftmost-match driver: try the matcher at every start position. -/
def scan {α : Type} (m : List Char → Option α) : List Char → Option α
  | [] => m []
  | c :: rest =>
    match m (c :: rest) with
    | some a => some a
    | none => scan m rest

/-- Index of the first position at which the matcher succeeds. -/
def scanIdx {α : Type} (m : List Char → Option α) : List Char → Option Nat
  | [] => (m []).map (fun _ => 0)
  | c :: rest =>
    match m (c :: rest) with
    | some _ => some 0
    | none => (scanIdx m rest).map (fun i => i + 1)

def firstSome {α β : Type} (f : α → Option β) : List α → Option β
  | [] => none
  | a :: r =>
    match f a with
    | some b => some b
    | none => firstSome f r

/-- Matcher for `\d{2}\.\d{2}\.\d{4}` — returns the matched text and the rest. -/
def mDDMMYYYY (l : List Char) : Option (List Char × List Char) :=
  match takeDigits 2 l with
  | some (d1, '.' :: r1) =>
    match takeDigits 2 r1 with
    | some (d2, '.' :: r2) =>
      match takeDigits 4 r2 with
      | some (d3, rest) => some (d1 ++ '.' :: d2 ++ '.' :: d3, rest)
      | none => none
    | _ => none
  | _ => none

/-- Matcher for `\d{2}:\d{2}`. -/
def mHHMM (l : List Char) : Option (List Char × List Char) :=
  match takeDigits 2 l with
  | some (h, ':' :: r) =>
    match takeDigits 2 r with
    | some (mi, rest) => some (h ++ ':' :: mi, rest)
    | none => none
  | _ => none

/-- One attempt, at a fixed position, of
`/(\d{2}\.\d{2}\.\d{4})\s+(\d{2}:\d{2})(?:\s+bis\s+(\d{2}:\d{2}))?\s*Uhr/`
(the greedy optional group is tried first, then dropped). -/
def singleAt (l : List Char) : Option (String × String) := do
  let (ds, r1) ← mDDMMYYYY l
  let r2 ← wsPlus r1
  let (ts, r3) ← mHHMM r2
  let withGroup : Option (List Char) := do
    let r4 ← wsPlus r3
    let r5 ← litS "bis" r4
    let r6 ← wsPlus r5
    let (_, r7) ← mHHMM r6
    litS "Uhr" (wsStar r7)
  match withGroup with
  | some _ => pure (String.mk ds, String.mk ts)
  | none => do
    let _ ← litS "Uhr" (wsStar r3)
    pure (String.mk ds, String.mk ts)

/-- One attempt of `/(\d{2}\.\d{2}\.\d{4})\s+bis\s+(\d{2}\.\d{2}\.\d{4})/`. -/
def rangeAt (l : List Char) : Option (String × String) := do
  let (d1, r1) ← mDDMMYYYY l
  let r2 ← wsPlus r1
  let r3 ← litS "bis" r2
  let r4 ← wsPlus r3
  let (d2, _) ← mDDMMYYYY r4
  pure (String.mk d1, String.mk d2)

def dateOnlyAt (l : List Char) : Option String :=
  (mDDMMYYYY l).map (fun p => String.mk p.1)

def findSingle (l : List Char) : Option (String × String) := scan singleAt l
def findRange (l : List Char) : Option (String × String) := scan rangeAt l
def findDateOnly (l : List Char) : Option String := scan dateOnlyAt l

/-- Matcher for `\d{1,2}`: the greedy two-digit reading first, then the one-digit
backtrack, each with the remaining input. -/
def takeD12 : List Char → List (List Char × List Char)
  | a :: b :: rest =>
    if a.isDigit then
      if b.isDigit then [([a, b], rest), ([a], b :: rest)] else [([a], b :: rest)]
    else []
  | [a] => if a.isDigit then [([a], [])] else []
  | [] => []

/-- Models `String.prototype.padStart(2, '0')`. -/
def padTwo (s : List Char) : List Char := List.replicate (2 - s.length) '0' ++ s

/-- One attempt, at a fixed position, of the `parseDateDE` regex
`/(\d{1,2})\.(\d{1,2})\.(\d{4})(?:\s+(\d{1,2}):(\d{2}))?/`, already
producing the ISO string the function builds from the captures. -/
def deAt (l : List Char) : Option String :=
  firstSome (fun dp =>
    match dp.2 with
    | '.' :: r1 =>
      firstSome (fun mp =>
        match mp.2 with
        | '.' :: r2 =>
          match takeDigits 4 r2 with
          | some (ys, r3) =>
            let timePart : Option (List Char) := do
              let r4 ← wsPlus r3
              firstSome (fun hp =>
                match hp.2 with
                | ':' :: r5 =>
                  match takeDigits 2 r5 with
                  | some (mins, _) => some (padTwo hp.1 ++ ':' :: mins)
                  | none => none
                | _ => none) (takeD12 r4)
            let iso : List Char → String := fun timeCs =>
              String.mk (ys ++ '-' :: padTwo mp.1 ++ '-' :: padTwo dp.1
                         ++ 'T' :: timeCs ++ [':', '0', '0'])
            some (match timePart with
                  | some tcs => iso tcs
                  | none => iso ['0', '0', ':', '0', '0'])
          | none => none
        | _ => none) (takeD12 r1)
    | _ => none) (takeD12 l)

/-- Embedding of `parseDateDE(str)` (index.js:254-263). -/
def parseDateDE (s : String) : Option String := scan deAt s.toList

/-- The three mutually exclusive date-extraction patterns of
`fetchGiessenDe` (index.js:199-213), in priority order, already applied to
`parseDateDE`: returns `(date, dateEnd)`. -/
def giessenDates (text : String) : Option String × Option String :=
  let cs := text.toList
  match findSingle cs with
  | some (ds, ts) => (parseDateDE (ds ++ " " ++ ts), none)
  | none =>
    match findRange cs with
    | some (d1, d2) => (parseDateDE d1, parseDateDE d2)
    | none =>
      match findDateOnly cs with
      | some d => (parseDateDE d, none)
      | none => (none, none)

/-- The `.` class of JS regexes (no line terminators; the Unicode line
separators do not occur in this program's whitespace-collapsed inputs). -/
def notNL (c : Char) : Bool := c ≠ '\n' && c ≠ '\r'

/-- Does `l` consist exactly of `\s+Mehr\s*\.\.\.`? (the optional tail of
the description regex, anchored at `$`). -/
def mehrSuffix (l : List Char) : Bool :=
  match wsPlus l with
  | none => false
  | some r =>
    match litS "Mehr" r with
    | none => false
    | some r2 => wsStar r2 = ['.', '.', '.']

/-- The lazy capture `(.+?)(?:\s+Mehr\s*\.\.\.)?$`: the shortest non-empty
prefix after which the rest of the input is empty or the `Mehr …` tail. -/
def descCapture (l : List Char) : Option String :=
  firstSome (fun k =>
    let cap := l.take k
    let rest := l.drop k
    if cap.all notNL ∧ (rest = [] ∨ mehrSuffix rest = true) then some (String.mk cap)
    else none)
    ((List.range l.length).map (fun k => k + 1))

/-- One attempt of `/Uhr\s+(.+?)(?:\s+Mehr\s*\.\.\.)?$/`: the greedy `\s+`
is tried from the maximal whitespace run down to one character. -/
def descAt (l : List Char) : Option String :=
  match litS "Uhr" l with
  | none => none
  | some r =>
    let m := (r.takeWhile isWs).length
    firstSome (fun i => descCapture (r.drop i))
      (((List.range m).reverse).map (fun i => i + 1))

/-- One attempt of the weak fallback `/\d{4}\s+(.{10,}?)$/`: a lazy,
`$`-anchored capture takes the whole remainder, which must have length at
least ten. -/
def afterDateAt (l : List Char) : Option String :=
  match takeDigits 4 l with
  | some (_, r) =>
    let m := (r.takeWhile isWs).length
    firstSome (fun i =>
      let cap := r.drop i
      if 10 ≤ cap.length ∧ cap.all notNL then some (String.mk cap) else none)
      (((List.range m).reverse).map (fun i => i + 1))
  | none => none

/-- Description recovery of `fetchGiessenDe` (index.js:224-231). -/
def giessenDescription (text : String) : Option String :=
  match scan descAt text.toList with
  | some d => some (jsSlice 200 d)
  | none =>
    match scan afterDateAt text.toList with
    | some d => some (jsSlice 200 d)
    | none => none

/-- Models `replace(/^©\s*.+?\s\x7b2,\x7d/, '')` (lazy dot-run, then at least two
whitespace characters; the greedy leading `\s*` backtracks from the maximal
run down). -/
def stripCopyrightLong (s : String) : String :=
  match s.toList with
  | '©' :: cs =>
    let m := (cs.takeWhile isWs).length
    match firstSome (fun i =>
        firstSome (fun k =>
          let rest := (cs.drop i).drop k
          if (((cs.drop i).take k).all notNL &&
              (match rest with
               | a :: b :: _ => isWs a && isWs b
               | _ => false)) = true then some (i + k) else none)
          ((List.range cs.length).map (fun k => k + 1)))
        ((List.range (m + 1)).reverse) with
    | some p =>
      let run := ((cs.drop p).takeWhile isWs).length
      String.mk ((cs.drop p).drop run)
    | none => s
  | _ => s

/-- Models `replace(/^©\s*/, '')`. -/
def stripCopyrightShort (s : String) : String :=
  match s.toList with
  | '©' :: cs => String.mk (cs.dropWhile isWs)
  | _ => s

/-- The fallback name recovery (index.js:183-188): attribution prefix
stripped from the rendered link text, then trimmed. -/
def giessenFallbackName (rawText : String) : String :=
  jsTrimS (stripCopyrightShort (stripCopyrightLong rawText))

-- `decodeURIComponent`, including UTF-8 multi-byte escapes; `none` models
-- the `URIError` a malformed escape throws (caught only by the adapter's
-- outer try/catch, aborting the whole item list).

def hexVal (c : Char) : Option Nat :=
  if '0' ≤ c ∧ c ≤ '9' then some (c.toNat - '0'.toNat)
  else if 'a' ≤ c ∧ c ≤ 'f' then some (c.toNat - 'a'.toNat + 10)
  else if 'A' ≤ c ∧ c ≤ 'F' then some (c.toNat - 'A'.toNat + 10)
  else none

/-- Is this a valid `%XX` continuation byte (`0x80`–`0xBF`)? If so, its
six payload bits. -/
def contBits (a b : Char) : Option Nat :=
  match hexVal a, hexVal b with
  | some ha, some hb =>
    let n := ha * 16 + hb
    if 0x80 ≤ n ∧ n < 0xc0 then some (n % 64) else none
  | _, _ => none

def decodeURIComponentE : List Char → Option (List Char)
  | [] => some []
  | '%' :: a :: b :: rest =>
    (match hexVal a, hexVal b with
     | some ha, some hb =>
       let n := ha * 16 + hb
       if n < 0x80 then (decodeURIComponentE rest).map (fun t => Char.ofNat n :: t)
       else if 0xc2 ≤ n ∧ n < 0xe0 then
         match rest with
         | '%' :: c :: d :: rest2 =>
           match contBits c d with
           | some c1 => (decodeURIComponentE rest2).map
               (fun t => Char.ofNat ((n % 32) * 64 + c1) :: t)
           | none => none
         | _ => none
       else if 0xe0 ≤ n ∧ n < 0xf0 then
         match rest with
         | '%' :: c :: d :: '%' :: e :: f :: rest2 =>
           match contBits c d, contBits e f with
           | some c1, some c2 =>
             let cp := (n % 16) * 4096 + c1 * 64 + c2
             if 0x800 ≤ cp ∧ ¬(0xd800 ≤ cp ∧ cp ≤ 0xdfff) then
               (decodeURIComponentE rest2).map (fun t => Char.ofNat cp :: t)
             else none
           | _, _ => none
         | _ => none
       else if 0xf0 ≤ n ∧ n < 0xf5 then
         match rest with
         | '%' :: c :: d :: '%' :: e :: f :: '%' :: g :: h :: rest2 =>
           match contBits c d, contBits e f, contBits g h with
           | some c1, some c2, some c3 =>
             let cp := (n % 8) * 262144 + c1 * 4096 + c2 * 64 + c3
             if 0x10000 ≤ cp ∧ cp ≤ 0x10ffff then
               (decodeURIComponentE rest2).map (fun t => Char.ofNat cp :: t)
             else none
           | _, _, _ => none
         | _ => none
       else none
     | _, _ => none)
  | '%' :: _ => none
  | c :: rest => (decodeURIComponentE rest).map (fun t => c :: t)

/-- Models `replace(/\.php$/, '')`. -/
def stripPhpEnd (l : List Char) : List Char :=
  if l.length ≥ 4 ∧ l.drop (l.length - 4) = ['.', 'p', 'h', 'p'] then
    l.take (l.length - 4)
  else l

/-- One attempt of `/Veranstaltungen\/([^.?]+)/`: the capture is the maximal
non-empty run without `.` or `?` after the literal. -/
def slugAt (l : List Char) : Option (List Char) :=
  match litS "Veranstaltungen/" l with
  | some r =>
    let cap := r.takeWhile (fun c => c ≠ '.' && c ≠ '?')
    if cap.isEmpty then none else some cap
  | none => none

/-- The slug-based name recovery (index.js:172-181): decode the captured
slug, hyphens to spaces, strip a trailing `.php`, trim.  `Except.error`
is the `URIError` of a malformed percent escape. -/
def giessenSlugName (href : String) : Except Unit (Option String) :=
  match scan slugAt href.toList with
  | none => Except.ok none
  | some cap =>
    match decodeURIComponentE cap with
    | none => Except.error ()
    | some dec =>
      Except.ok (some (jsTrimS (String.mk
        (stripPhpEnd (dec.map (fun c => if c = '-' then ' ' else c))))))

/-- The navigation/index denylist regex (index.js:192), case-insensitive. -/
def giessenDeny (name : String) : Bool :=
  ["heute", "morgen", "diese woche", "dieses wochenende", "4 wochen",
   "veranstaltungen", "musikalischer sommer", "raumkataster", "index"].contains
    (jsToLowerS name)

def startsWithL : List Char → List Char → Bool
  | [], _ => true
  | _ :: _, [] => false
  | p :: ps, c :: cs => c = p && startsWithL ps cs

/-- JS `String.prototype.includes`. -/
def containsSub (s pat : String) : Bool :=
  (scan (fun l => if startsWithL pat.toList l then some () else none) s.toList).isSome

/-- One candidate list item of the giessen.de page, reduced to the strings
the adapter reads from it (the cheerio selection `ul li` with a matching
`a[href*="/Veranstaltungen/"]` link is outside the embedding). -/
structure GiessenCand where
  text : String
  linkText : String
  href : String
deriving DecidableEq, Repr

/-- Name extraction and the three skip checks (index.js:170-193); `ok none`
is an item skipped by `return`, `error` a thrown `URIError`. -/
def giessenNameStage (c : GiessenCand) : Except Unit (Option String) := do
  let rawText := collapseTrim c.linkText
  let name1 ← giessenSlugName c.href
  let name :=
    match name1 with
    | some n => if n.length < 3 then giessenFallbackName rawText else n
    | none => giessenFallbackName rawText
  if name.length < 3 then pure none
  else if giessenDeny name then pure none
  else if containsSub c.href "index.php?" then pure none
  else pure (some name)

/-- Models `name.split(/\d\x7b2\x7d\.\d\x7b2\x7d\.\d\x7b4\x7d/)[0]`: the prefix
before the first date match (the whole string when there is none). -/
def prefixBeforeDate (s : String) : String :=
  match scanIdx (fun l => (mDDMMYYYY l).map (fun _ => ())) s.toList with
  | some i => String.mk (s.toList.take i)
  | none => s

/-- Models `dateEnd ? new Date(dateEnd).getTime() : eventTs`. -/
def giessenEffEnd (d : String) (de : Option String) : JsNum :=
  match de with
  | some x => jsTimeOf x
  | none => jsTimeOf d

/-- The whole per-item pipeline of `fetchGiessenDe` (index.js:161-244):
name stage, date extraction, range filter, description, record build.
`startTs`/`endTs` are `dateRange.start.getTime()` / `dateRange.end.getTime()`. -/
def giessenProcessItem (startTs endTs : JsNum) (c : GiessenCand) :
    Except Unit (Option Event) := do
  let text := collapseTrim c.text
  let nameO ← giessenNameStage c
  match nameO with
  | none => pure none
  | some name =>
    let dates := giessenDates text
    let keep : Bool :=
      match dates.1 with
      | some d => !(jsLtB (giessenEffEnd d dates.2) startTs || jsLtB endTs (jsTimeOf d))
      | none => true
    if keep then
      pure (some
        { name := some (let p := jsTrimS (prefixBeforeDate name)
                        if p = "" then name else p)
          date := dates.1
          venue := none
          address := some "Gießen"
          type := "other"
          url := if c.href = "" then none
                 else some (if startsWithL "http".toList c.href.toList then c.href
                            else "https://www.giessen.de" ++ c.href)
          price := none
          source := "giessen.de"
          description := giessenDescription text })
    else pure none

-- ── Derived definitions used in the statements ──────────────────────────

/-- Holds when `start ≤ end` whenever both bounds of the range are valid dates. -/
def rangeOrdered (r : DateRange) : Prop :=
  ∀ s e, r.start = some s → r.stop = some e → s ≤ e

/-- The `daysUntilSat` computation of the weekend branch:
`(6 - now.getDay() + 7) % 7 || 7`. -/
def weekendOffset (now : Int) : Int :=
  let r := (6 - jsGetDay now + 7) % 7
  if r = 0 then 7 else r

-- Concrete records used by counterexamples and witnesses.

def c1a : Event :=
  ⟨some "Stadtfest", none, none, none, "other", none, none, "a", none⟩

def c1b : Event :=
  ⟨some "stadtfest!", none, none, none, "other",
    some "https://example.org/x", none, "b", none⟩

def c1wa : Event :=
  ⟨some "Kino Abend", none, none, none, "other", none, some "5€", "a", none⟩

def c1wb : Event :=
  ⟨some "KINO-Abend!", none, some "Saal 1", none, "other", none, none, "b", none⟩

def c2a : Event :=
  ⟨some "Konzert", none, none, none, "other", none, none, "a", none⟩

def c2b : Event :=
  ⟨some "Konzert", none, none, none, "other", none, some "10€", "b", none⟩

def c2wa : Event :=
  ⟨some "Alpha", none, none, none, "other", none, none, "a", none⟩

def c2wb : Event :=
  ⟨some "Beta", none, none, none, "other", none, none, "b", none⟩

/-- An undated event (no start time). -/
def c6a : Event :=
  ⟨some "Lesung", none, none, none, "other", none, none, "giessen.de", none⟩

/-- An event whose date field is present but unparseable — its sort key is
`NaN` (reachable: the Meetup card fallback and the Deskline DOM path pass
raw scraped date text through). -/
def c6b : Event :=
  ⟨some "Theater", some "Morgen 19 Uhr", none, none, "other", none, none,
    "meetup", none⟩

def c6wa : Event :=
  ⟨some "Fest", some "2026-03-01T10:00:00", none, none, "other", none, none,
    "a", none⟩

def c6wb : Event :=
  ⟨some "Markt", none, none, none, "other", none, none, "b", none⟩

/-- A Ticketmaster response item with no name (and nothing else). -/
def tmBad : TmItem :=
  ⟨none, none, none, none, none, none, none, none, none, none, none⟩

def g8cand : GiessenCand :=
  ⟨"Stadtfest 25.02.2026 18:00 Uhr Grosses Fest in der Stadt", "Stadtfest",
    "/Erleben/Veranstaltungen/Stadtfest-2026.php"⟩

/-- The event `giessenProcessItem` produces from `g8cand` with the range
`[0, 1999999999999]`. -/
def g8ev : Event :=
  ⟨some "Stadtfest 2026", some "2026-02-25T18:00:00", none, some "Gießen",
    "other", some "https://www.giessen.de/Erleben/Veranstaltungen/Stadtfest-2026.php",
    none, "giessen.de", some "Grosses Fest in der Stadt"⟩

def g9cand : GiessenCand :=
  ⟨"Konzert am 25.02.2026 20:00 Uhr im Schlosspark", "Konzert",
    "/Erleben/Veranstaltungen/Konzert-im-Park.php"⟩

/-- A JSON-LD event as the Meetup adapter sees it. -/
def c10item : LdItem :=
  ⟨some "Event", some "Treffen", none, none, none, none, false, none⟩

def c10wev : Event :=
  ⟨some "Flohmarkt", none, none, none, "other", none, none, "giessen.de", none⟩


-- ════════════════════════════════════════════════════════════════════════
-- Theorems
-- ════════════════════════════════════════════════════════════════════════

-- ── Properties of the comparator ────────────────────────────────────────

theorem jsLtB_trans {a b c : JsNum} (h1 : jsLtB a b = true) (h2 : jsLtB b c = true) :
    jsLtB a c = true := by
  cases a <;> cases b <;> cases c <;> simp_all [jsLtB]
  all_goals omega

theorem jsLtB_asymm {a b : JsNum} (h : jsLtB a b = true) : jsLtB b a = false := by
  cases a <;> cases b <;> simp_all [jsLtB]
  all_goals omega

theorem jsLtB_irrefl (a : JsNum) : jsLtB a a = false := by
  cases a <;> simp [jsLtB]

-- ── The sort step ───────────────────────────────────────────────────────

theorem mem_insertByDate {x z : Event} {l : List Event}
    (h : z ∈ insertByDate x l) : z = x ∨ z ∈ l := by
  induction l with
  | nil => simp [insertByDate] at h; simp [h]
  | cons y ys ih =>
    rw [insertByDate] at h
    split at h
    · rcases List.mem_cons.mp h with h | h
      · exact Or.inl h
      · exact Or.inr h
    · rcases List.mem_cons.mp h with h | h
      · exact Or.inr (by simp [h])
      · rcases ih h with h | h
        · exact Or.inl h
        · exact Or.inr (by simp [h])

/-- Invariant of `insertByDate`: the result never has an element strictly
less (per the JS comparator) than an element in front of it.  This holds
for arbitrary inputs, `NaN` keys included. -/
theorem pairwise_insertByDate (x : Event) (l : List Event)
    (h : l.Pairwise (fun a b => jsLtB (eventTime b) (eventTime a) = false)) :
    (insertByDate x l).Pairwise
      (fun a b => jsLtB (eventTime b) (eventTime a) = false) := by
  induction l with
  | nil => simp [insertByDate]
  | cons y ys ih =>
    rcases List.pairwise_cons.mp h with ⟨hy, hys⟩
    rw [insertByDate]
    by_cases hlt : jsLtB (eventTime x) (eventTime y) = true
    · rw [if_pos hlt]
      refine List.pairwise_cons.mpr ⟨?_, h⟩
      intro z hz
      rcases List.mem_cons.mp hz with rfl | hz
      · exact jsLtB_asymm hlt
      · by_contra hc
        have hzx : jsLtB (eventTime z) (eventTime x) = true := by
          cases hb : jsLtB (eventTime z) (eventTime x) with
          | true => rfl
          | false => exact absurd hb hc
        have h1 := jsLtB_trans hzx hlt
        have h2 := hy z hz
        rw [h1] at h2
        exact Bool.noConfusion h2
    · rw [if_neg hlt]
      have hlt' : jsLtB (eventTime x) (eventTime y) = false := by
        cases hb : jsLtB (eventTime x) (eventTime y) with
        | true => exact absurd hb hlt
        | false => rfl
      refine List.pairwise_cons.mpr ⟨?_, ih hys⟩
      intro z hz
      rcases mem_insertByDate hz with rfl | hz
      · exact hlt'
      · exact hy z hz

theorem pairwise_foldl_insert (l : List Event) (acc : List Event)
    (h : acc.Pairwise (fun a b => jsLtB (eventTime b) (eventTime a) = false)) :
    (l.foldl (fun a x => insertByDate x a) acc).Pairwise
      (fun a b => jsLtB (eventTime b) (eventTime a) = false) := by
  induction l generalizing acc with
  | nil => simpa using h
  | cons x xs ih => exact ih _ (pairwise_insertByDate x acc h)

theorem pairwise_sortByDate (l : List Event) :
    (sortByDate l).Pairwise (fun a b => jsLtB (eventTime b) (eventTime a) = false) :=
  pairwise_foldl_insert l [] (by simp)

theorem insertByDate_append (x : Event) (l : List Event)
    (h : ∀ w ∈ l, jsLtB (eventTime x) (eventTime w) = false) :
    insertByDate x l = l ++ [x] := by
  induction l with
  | nil => simp [insertByDate]
  | cons y ys ih =>
    rw [insertByDate, if_neg (by simp [h y (by simp)]), ih (fun w hw => h w (by simp [hw]))]
    simp

theorem foldl_insert_sorted (l : List Event) (acc : List Event)
    (h : (acc ++ l).Pairwise (fun a b => jsLtB (eventTime b) (eventTime a) = false)) :
    l.foldl (fun a x => insertByDate x a) acc = acc ++ l := by
  induction l generalizing acc with
  | nil => simp
  | cons x xs ih =>
    have hx : ∀ w ∈ acc, jsLtB (eventTime x) (eventTime w) = false := by
      intro w hw
      exact (List.pairwise_append.mp h).2.2 w hw x (by simp)
    rw [List.foldl_cons, insertByDate_append x acc hx, ih (acc ++ [x]) (by simpa using h)]
    simp

/-- Stable-sorting an already "sorted" list is the identity. -/
theorem sortByDate_sorted_id (l : List Event)
    (h : l.Pairwise (fun a b => jsLtB (eventTime b) (eventTime a) = false)) :
    sortByDate l = l :=
  foldl_insert_sorted l [] (by simpa using h)

theorem insertByDate_perm (x : Event) (l : List Event) :
    (insertByDate x l).Perm (x :: l) := by
  induction l with
  | nil => simp [insertByDate]
  | cons y ys ih =>
    rw [insertByDate]
    split
    · exact List.Perm.refl _
    · exact (List.Perm.cons y ih).trans (List.Perm.swap x y ys)

theorem foldl_insert_perm (l : List Event) (acc : List Event) :
    (l.foldl (fun a x => insertByDate x a) acc).Perm (acc ++ l) := by
  induction l generalizing acc with
  | nil => simp
  | cons x xs ih =>
    rw [List.foldl_cons]
    refine (ih (insertByDate x acc)).trans ?_
    refine (((insertByDate_perm x acc).append_right xs).trans ?_)
    exact List.perm_middle.symm.trans (by simp)

theorem sortByDate_perm (l : List Event) : (sortByDate l).Perm l := by
  simpa using foldl_insert_perm l []

/-- Stability of the sort step: elements with any fixed sort key keep their
relative order (again for arbitrary inputs). -/
theorem filter_time_insertByDate (x : Event) (t : JsNum) (l : List Event)
    (h : l.Pairwise (fun a b => jsLtB (eventTime b) (eventTime a) = false)) :
    (insertByDate x l).filter (fun e => eventTime e = t) =
      l.filter (fun e => eventTime e = t) ++
        (if eventTime x = t then [x] else []) := by
  induction l with
  | nil => simp only [insertByDate, List.filter_cons, List.filter_nil]; split <;> simp_all
  | cons y ys ih =>
    rcases List.pairwise_cons.mp h with ⟨hy, hys⟩
    rw [insertByDate]
    by_cases hlt : jsLtB (eventTime x) (eventTime y) = true
    · rw [if_pos hlt]
      by_cases hx : eventTime x = t
      · have hempty : (y :: ys).filter (fun e => eventTime e = t) = [] := by
          rw [List.filter_eq_nil_iff]
          intro z hz
          simp only [decide_eq_true_eq]
          intro hzt
          rcases List.mem_cons.mp hz with rfl | hzys
          · rw [hzt, ← hx] at hlt
            rw [jsLtB_irrefl] at hlt
            exact Bool.noConfusion hlt
          · have h1 : jsLtB (eventTime z) (eventTime y) = true := by
              rw [hzt, ← hx]; exact hlt
            have h2 := hy z hzys
            rw [h1] at h2
            exact Bool.noConfusion h2
        rw [List.filter_cons, if_pos (by simp [hx]), hempty]
        simp [hx]
      · rw [List.filter_cons, if_neg (by simp [hx])]
        simp [hx]
    · rw [if_neg hlt]
      rw [List.filter_cons, List.filter_cons, ih hys]
      split <;> simp

theorem filter_time_foldl (l : List Event) (acc : List Event) (t : JsNum)
    (hacc : acc.Pairwise (fun a b => jsLtB (eventTime b) (eventTime a) = false)) :
    (l.foldl (fun a x => insertByDate x a) acc).filter (fun e => eventTime e = t) =
      acc.filter (fun e => eventTime e = t) ++ l.filter (fun e => eventTime e = t) := by
  induction l generalizing acc with
  | nil => simp
  | cons x xs ih =>
    rw [List.foldl_cons, ih (insertByDate x acc) (pairwise_insertByDate x acc hacc),
      filter_time_insertByDate x t acc hacc, List.filter_cons]
    split <;> simp_all

theorem filter_time_sortByDate (l : List Event) (t : JsNum) :
    (sortByDate l).filter (fun e => eventTime e = t) =
      l.filter (fun e => eventTime e = t) := by
  simpa using filter_time_foldl l [] t (by simp)

-- ── The merge pass ──────────────────────────────────────────────────────

theorem mergeInto_name (a b : Event) : (mergeInto a b).name = a.name := by
  unfold mergeInto; dsimp only; split <;> split <;> rfl

theorem mergeInto_date (a b : Event) : (mergeInto a b).date = a.date := by
  unfold mergeInto; dsimp only; split <;> split <;> rfl

theorem mergeInto_url (a b : Event) : (mergeInto a b).url = a.url := by
  unfold mergeInto; dsimp only; split <;> split <;> rfl

theorem mergeInto_address (a b : Event) : (mergeInto a b).address = a.address := by
  unfold mergeInto; dsimp only; split <;> split <;> rfl

theorem mergeInto_descr (a b : Event) : (mergeInto a b).description = a.description := by
  unfold mergeInto; dsimp only; split <;> split <;> rfl

theorem mergeInto_type (a b : Event) : (mergeInto a b).type = a.type := by
  unfold mergeInto; dsimp only; split <;> split <;> rfl

theorem mergeInto_source (a b : Event) :
    (mergeInto a b).source = a.source ++ ", " ++ b.source := by
  unfold mergeInto; dsimp only; split <;> split <;> rfl

theorem mergeInto_price (a b : Event) :
    (mergeInto a b).price =
      if truthyS a.price = false ∧ truthyS b.price = true then b.price
      else a.price := by
  unfold mergeInto; dsimp only
  split
  · split <;> rename_i h1 h2 <;> simp_all
  · split <;> rename_i h1 h2 <;> simp_all

theorem mergeInto_venue (a b : Event) :
    (mergeInto a b).venue =
      if truthyS a.venue = false ∧ truthyS b.venue = true then b.venue
      else a.venue := by
  unfold mergeInto; dsimp only
  split
  · split <;> rename_i h1 h2 <;> simp_all
  · split <;> rename_i h1 h2 <;> simp_all

/-- Merging never changes the identity key (it only touches price, venue
and source, while the key reads name and date). -/
theorem dedupKey_mergeInto (a b : Event) : dedupKey (mergeInto a b) = dedupKey a := by
  unfold dedupKey
  rw [mergeInto_name, mergeInto_date]

theorem updateKey_keys (m : List (String × Event)) (k : String) (e : Event) :
    (updateKey m k e).map Prod.fst = m.map Prod.fst := by
  unfold updateKey
  rw [List.map_map]
  apply List.map_congr_left
  intro p _
  simp only [Function.comp]
  split <;> rfl

theorem entriesOk_dedupGo (l : List Event) (m : List (String × Event))
    (hm : ∀ p ∈ m, dedupKey p.2 = p.1) :
    ∀ p ∈ dedupGo m l, dedupKey p.2 = p.1 := by
  induction l generalizing m with
  | nil =>
    intro p hp
    simp only [dedupGo] at hp
    exact hm p hp
  | cons e rest ih =>
    rw [dedupGo]
    cases hl : lookupKey m (dedupKey e) with
    | none =>
      simp only
      refine ih _ ?_
      intro p hp
      rcases List.mem_append.mp hp with hp | hp
      · exact hm p hp
      · simp only [List.mem_singleton] at hp
        subst hp; rfl
    | some ex =>
      simp only
      refine ih _ ?_
      intro p hp
      unfold updateKey at hp
      rcases List.mem_map.mp hp with ⟨q, hq, hqe⟩
      by_cases hk : q.1 = dedupKey e
      · rw [if_pos hk] at hqe
        subst hqe
        simp only
        rw [dedupKey_mergeInto]
        exact hm q hq
      · rw [if_neg hk] at hqe
        subst hqe
        exact hm q hq

theorem keysNodup_dedupGo (l : List Event) (m : List (String × Event))
    (hm : (m.map Prod.fst).Nodup) :
    ((dedupGo m l).map Prod.fst).Nodup := by
  induction l generalizing m with
  | nil => simpa [dedupGo]
  | cons e rest ih =>
    rw [dedupGo]
    cases hl : lookupKey m (dedupKey e) with
    | some ex =>
      simp only
      refine ih _ ?_
      rw [updateKey_keys]
      exact hm
    | none =>
      simp only
      refine ih _ ?_
      have hfresh : ∀ p ∈ m, ¬(p.1 = dedupKey e) := by
        intro p hp
        have : m.find? (fun p => p.1 = dedupKey e) = none := by
          unfold lookupKey at hl
          cases hf : m.find? (fun p => p.1 = dedupKey e) with
          | none => rfl
          | some q => rw [hf] at hl; exact Option.noConfusion hl
        simpa using List.find?_eq_none.mp this p hp
      rw [List.map_append]
      rw [List.nodup_append]
      refine ⟨hm, by simp, ?_⟩
      intro a ha
      simp only [List.map_cons, List.map_nil, List.mem_singleton]
      rcases List.mem_map.mp ha with ⟨p, hp, hpe⟩
      intro hae
      exact hfresh p hp (by rw [hpe, hae])

theorem lookupKey_of_fresh (m : List (String × Event)) (k : String)
    (h : ∀ p ∈ m, p.1 ≠ k) : lookupKey m k = none := by
  unfold lookupKey
  rw [List.find?_eq_none.mpr (by intro p hp; simpa using h p hp)]
  rfl

theorem dedupGo_of_distinct (l : List Event) (m : List (String × Event))
    (hfresh : ∀ e ∈ l, ∀ p ∈ m, p.1 ≠ dedupKey e)
    (hdist : l.Pairwise (fun a b => dedupKey a ≠ dedupKey b)) :
    dedupGo m l = m ++ l.map (fun e => (dedupKey e, e)) := by
  induction l generalizing m with
  | nil => simp [dedupGo]
  | cons e rest ih =>
    rcases List.pairwise_cons.mp hdist with ⟨he, hrest⟩
    rw [dedupGo, lookupKey_of_fresh m (dedupKey e) (hfresh e (by simp))]
    simp only
    rw [ih (m ++ [(dedupKey e, e)]) ?_ hrest]
    · simp
    · intro x hx p hp
      rcases List.mem_append.mp hp with hp | hp
      · exact hfresh x (by simp [hx]) p hp
      · simp only [List.mem_singleton] at hp
        subst hp
        exact he x hx

theorem dedupMerged_of_distinct (l : List Event)
    (hdist : l.Pairwise (fun a b => dedupKey a ≠ dedupKey b)) :
    dedupMerged l = l := by
  unfold dedupMerged
  rw [dedupGo_of_distinct l [] (by simp) hdist]
  simp only [List.nil_append]
  have : ((fun p => p.2) ∘ fun e => ((dedupKey e, e) : String × Event)) = id := by
    funext e; rfl
  rw [List.map_map, this, List.map_id]

/-- The records produced by the merge pass have pairwise distinct keys. -/
theorem dedupMerged_keys_distinct (l : List Event) :
    (dedupMerged l).Pairwise (fun a b => dedupKey a ≠ dedupKey b) := by
  unfold dedupMerged
  rw [List.pairwise_map]
  have hk := keysNodup_dedupGo l [] (by simp)
  have he := entriesOk_dedupGo l [] (by simp)
  have hp : (dedupGo [] l).Pairwise (fun p q => p.1 ≠ q.1) := by
    simpa [List.Nodup, List.pairwise_map] using hk
  refine hp.imp_of_mem ?_
  intro p q hpm hqm hne
  rw [he p hpm, he q hqm]
  exact hne

theorem dedup_keys_distinct (l : List Event) :
    (dedup l).Pairwise (fun a b => dedupKey a ≠ dedupKey b) := by
  unfold dedup
  have hperm := sortByDate_perm (dedupMerged l)
  exact (hperm.pairwise_iff (fun h heq => h heq.symm)).mpr (dedupMerged_keys_distinct l)

/-- C5: `dedup` is idempotent — applying it to its own output returns the
same sequence (same records, same order).  The second pass finds every key
exactly once (so it merges nothing and keeps the order), and stable-sorting
an already sorted list is the identity. -/
theorem dedup_idempotent (events : List Event) :
    dedup (dedup events) = dedup events := by
  have hd := dedup_keys_distinct events
  have h2 : (dedup events).Pairwise
      (fun a b => jsLtB (eventTime b) (eventTime a) = false) := by
    unfold dedup
    exact pairwise_sortByDate _
  show sortByDate (dedupMerged (dedup events)) = dedup events
  rw [dedupMerged_of_distinct _ hd]
  exact sortByDate_sorted_id _ h2

/-- The merge pass only ever rewrites price, venue and source, so any
predicate on the date field that holds of the stored records and of the
incoming events holds of every record it produces. -/
theorem dedupGo_date_pred (P : Option String → Prop) (l : List Event)
    (m : List (String × Event)) (hm : ∀ p ∈ m, P p.2.date)
    (hl : ∀ e ∈ l, P e.date) : ∀ p ∈ dedupGo m l, P p.2.date := by
  induction l generalizing m with
  | nil =>
    intro p hp
    simp only [dedupGo] at hp
    exact hm p hp
  | cons e rest ih =>
    rw [dedupGo]
    cases hk : lookupKey m (dedupKey e) with
    | none =>
      simp only
      refine ih _ ?_ (fun x hx => hl x (by simp [hx]))
      intro p hp
      rcases List.mem_append.mp hp with hp | hp
      · exact hm p hp
      · simp only [List.mem_singleton] at hp
        subst hp
        exact hl e (by simp)
    | some ex =>
      simp only
      refine ih _ ?_ (fun x hx => hl x (by simp [hx]))
      intro p hp
      unfold updateKey at hp
      rcases List.mem_map.mp hp with ⟨q, hq, hqe⟩
      by_cases hqk : q.1 = dedupKey e
      · rw [if_pos hqk] at hqe
        subst hqe
        show P (mergeInto q.2 e).date
        rw [mergeInto_date]
        exact hm q hq
      · rw [if_neg hqk] at hqe
        subst hqe
        exact hm q hq

theorem dedup_date_pred (P : Option String → Prop) (events : List Event)
    (hl : ∀ e ∈ events, P e.date) : ∀ e ∈ dedup events, P e.date := by
  intro e he
  have he1 : e ∈ sortByDate (dedupMerged events) := he
  have he2 : e ∈ dedupMerged events := (sortByDate_perm _).mem_iff.mp he1
  unfold dedupMerged at he2
  rcases List.mem_map.mp he2 with ⟨p, hp, hpe⟩
  subst hpe
  exact dedupGo_date_pred P events [] (by simp) hl p hp

theorem dedup_no_nan (events : List Event)
    (h : ∀ e ∈ events, eventTime e ≠ JsNum.nan) :
    ∀ e ∈ dedup events, eventTime e ≠ JsNum.nan := by
  intro e he
  refine dedup_date_pred
    (fun dd => ∀ ev : Event, ev.date = dd → eventTime ev ≠ JsNum.nan)
    events ?_ e he e rfl
  intro x hx ev hev
  have hsame : eventTime ev = eventTime x := by
    unfold eventTime
    rw [hev]
  rw [hsame]
  exact h x hx

/-- C6 (amended): for inputs whose present, non-empty date strings all
parse (no `NaN` sort keys — the shape the data-model invariant "dates are
always normalized before leaving an adapter" promises), the output of
`dedup` is sorted ascending by start time, every undated event appears
strictly after every dated one (whatever follows an undated event is
undated; whenever a later event has a finite time, every earlier one has a
finite time that is not larger), and the sort is stable: for every sort key
the records with that key keep the order of the merged list
`dedupMerged events`, i.e. first-occurrence order of the input.  An event
with an unparseable date string has a `NaN` key that ties with everything,
and the order around it is *not* as claimed (see the counterexample). -/
theorem dedup_sorted_stable_valid (events : List Event)
    (h : ∀ e ∈ events, eventTime e ≠ JsNum.nan) :
    (dedup events).Pairwise (fun a b => ∀ tb, eventTime b = JsNum.fin tb →
        ∃ ta, eventTime a = JsNum.fin ta ∧ ta ≤ tb)
    ∧ (dedup events).Pairwise (fun a b => eventTime a = JsNum.inf →
        eventTime b = JsNum.inf)
    ∧ ∀ t, (dedup events).filter (fun e => eventTime e = t) =
        (dedupMerged events).filter (fun e => eventTime e = t) := by
  have hout := dedup_no_nan events h
  have hs : (dedup events).Pairwise
      (fun a b => jsLtB (eventTime b) (eventTime a) = false) :=
    pairwise_sortByDate _
  refine ⟨?_, ?_, fun t => filter_time_sortByDate _ t⟩
  · refine hs.imp_of_mem ?_
    intro a b ha hb hab tb htb
    cases hta : eventTime a with
    | nan => exact absurd hta (hout a ha)
    | inf =>
      rw [hta, htb] at hab
      simp [jsLtB] at hab
    | fin ta =>
      refine ⟨ta, rfl, ?_⟩
      rw [hta, htb] at hab
      simp only [jsLtB, decide_eq_false_iff_not] at hab
      omega
  · refine hs.imp_of_mem ?_
    intro a b ha hb hab hainf
    cases htb : eventTime b with
    | nan => exact absurd htb (hout b hb)
    | inf => rfl
    | fin tb =>
      rw [hainf, htb] at hab
      simp [jsLtB] at hab

/-- C6 counterexample: an undated event and an event whose date string does
not parse (`NaN` sort key, which ties with everything under the JS
comparator).  `dedup` keeps the undated event *first*, so an event lacking
a start time does not appear strictly after every event that has one —
refuting the claim for arbitrary inputs. -/
theorem c6_counterexample :
    (dedup [c6a, c6b]).map (fun e => e.date) = [none, some "Morgen 19 Uhr"]
    ∧ eventTime c6a = JsNum.inf
    ∧ eventTime c6b = JsNum.nan := by decide

theorem dedup_sorted_stable_valid_witness :
    (∀ e ∈ [c6wa, c6wb], eventTime e ≠ JsNum.nan)
    ∧ List.Pairwise (fun a b => eventTime a = JsNum.inf →
        eventTime b = JsNum.inf) (dedup [c6wa, c6wb]) :=
  ⟨by decide, (dedup_sorted_stable_valid [c6wa, c6wb] (by decide)).2.1⟩

-- ── C1: what merging preserves ──────────────────────────────────────────

/-- C1 (amended): merging two records with the same identity key keeps every
field of the first (canonical) record — name, date, url, address,
description — fills the price and venue from the duplicate only when the
canonical one is absent/falsy, and appends the duplicate's source; a
non-null url/address/description/date present only on the duplicate is
*not* carried over (see the counterexample). -/
theorem dedup_pair_merge (a b : Event) (h : dedupKey a = dedupKey b) :
    dedup [a, b] = [mergeInto a b]
    ∧ (mergeInto a b).name = a.name
    ∧ (mergeInto a b).date = a.date
    ∧ (mergeInto a b).url = a.url
    ∧ (mergeInto a b).address = a.address
    ∧ (mergeInto a b).description = a.description
    ∧ (mergeInto a b).source = a.source ++ ", " ++ b.source
    ∧ (truthyS a.price = true ∨ truthyS b.price = true →
        truthyS (mergeInto a b).price = true)
    ∧ (truthyS a.venue = true ∨ truthyS b.venue = true →
        truthyS (mergeInto a b).venue = true) := by
  have hL : lookupKey [(dedupKey a, a)] (dedupKey b) = some a := by
    unfold lookupKey
    rw [List.find?_cons_of_pos _ (by simp [h])]
    rfl
  have hU : updateKey [(dedupKey a, a)] (dedupKey b) b =
      [(dedupKey a, mergeInto a b)] := by
    unfold updateKey
    simp [h]
  have hm : dedupMerged [a, b] = [mergeInto a b] := by
    unfold dedupMerged
    rw [dedupGo, lookupKey]
    simp only [List.find?_nil, Option.map_none', List.nil_append]
    rw [dedupGo, hL, hU]
    simp [dedupGo]
  refine ⟨?_, mergeInto_name a b, mergeInto_date a b, mergeInto_url a b,
    mergeInto_address a b, mergeInto_descr a b, mergeInto_source a b, ?_, ?_⟩
  · show sortByDate (dedupMerged [a, b]) = [mergeInto a b]
    rw [hm]
    simp [sortByDate, insertByDate]
  · intro hp
    rw [mergeInto_price]
    rcases hp with hp | hp
    · rw [if_neg (by simp [hp])]
      exact hp
    · by_cases ha : truthyS a.price = true
      · rw [if_neg (by simp [ha])]
        exact ha
      · rw [if_pos ⟨by simpa using ha, hp⟩]
        exact hp
  · intro hv
    rw [mergeInto_venue]
    rcases hv with hv | hv
    · rw [if_neg (by simp [hv])]
      exact hv
    · by_cases ha : truthyS a.venue = true
      · rw [if_neg (by simp [ha])]
        exact ha
      · rw [if_pos ⟨by simpa using ha, hv⟩]
        exact hv

/-- C1 counterexample: two events with the same identity key where only the
duplicate carries a url; the merged record's url is `none`, so a non-null
field of the second input is lost, refuting the claim as stated. -/
theorem c1_counterexample :
    dedupKey c1a = dedupKey c1b
    ∧ (dedup [c1a, c1b]).map (fun e => e.url) = [none]
    ∧ c1b.url = some "https://example.org/x" := by decide

theorem dedup_pair_merge_witness :
    dedupKey c1wa = dedupKey c1wb ∧ dedup [c1wa, c1wb] = [mergeInto c1wa c1wb] :=
  ⟨by decide, (dedup_pair_merge c1wa c1wb (by decide)).1⟩

-- ── C2: in-place mutation of the canonical record ───────────────────────

theorem dedupPostGo_id (l : List Event) (prev : List Event)
    (h : (prev ++ l).Pairwise (fun a b => dedupKey a ≠ dedupKey b)) :
    dedupPostGo prev l = l := by
  induction l generalizing prev with
  | nil => simp [dedupPostGo]
  | cons e rest ih =>
    rw [dedupPostGo]
    have hp := List.pairwise_append.mp h
    have hprev : prev.any (fun p => dedupKey p = dedupKey e) = false := by
      rw [List.any_eq_false]
      intro p hpm
      simpa using fun hh => hp.2.2 p hpm e (by simp) hh
    have hfilter : rest.filter (fun x => dedupKey x = dedupKey e) = [] := by
      rw [List.filter_eq_nil_iff]
      intro x hx
      have hne := (List.pairwise_cons.mp hp.2.1).1 x hx
      simpa using fun hh => hne hh.symm
    rw [hprev]
    simp only [Bool.false_eq_true, if_false, hfilter, List.foldl_nil]
    rw [ih (prev ++ [e]) (by simpa using h)]

/-- C2 (amended): `dedup` does *not* mutate records whose key is unique in
the input — but the first occurrence of a duplicated key is the `Map`'s
stored reference and is mutated in place by each merge (see the
counterexample).  `dedupPost` gives the post-call value of each input
record. -/
theorem dedup_no_mutation_of_distinct (events : List Event)
    (h : events.Pairwise (fun a b => dedupKey a ≠ dedupKey b)) :
    dedupPost events = events :=
  dedupPostGo_id events [] (by simpa using h)

/-- C2 counterexample: after `dedup([c2a, c2b])` returns, the first input
record's `source` has become `"a, b"` and its `price` `"10€"` — its field
values changed, refuting the no-mutation claim. -/
theorem c2_counterexample :
    (dedupPost [c2a, c2b]).map (fun e => (e.source, e.price)) =
      [("a, b", some "10€"), ("b", some "10€")]
    ∧ [c2a, c2b].map (fun e => (e.source, e.price)) =
      [("a", none), ("b", some "10€")] := by decide

theorem dedup_no_mutation_witness :
    List.Pairwise (fun a b => dedupKey a ≠ dedupKey b) [c2wa, c2wb]
    ∧ dedupPost [c2wa, c2wb] = [c2wa, c2wb] :=
  ⟨by simp [List.pairwise_cons]; decide,
   dedup_no_mutation_of_distinct _ (by simp [List.pairwise_cons]; decide)⟩

-- ── Day arithmetic lemmas ───────────────────────────────────────────────

theorem startOfDayMs_le (t : Int) : startOfDayMs t ≤ t := by
  unfold startOfDayMs msPerDay; omega

theorem le_endOfDayMs (t : Int) : t ≤ endOfDayMs t := by
  unfold endOfDayMs startOfDayMs msPerDay; omega

theorem startOfDayMs_le_endOfDayMs_of_le {a b : Int} (h : a ≤ b) :
    startOfDayMs a ≤ endOfDayMs b := by
  unfold endOfDayMs startOfDayMs msPerDay; omega

theorem epochDay_addDays (t k : Int) : epochDay (addDaysMs t k) = epochDay t + k := by
  unfold epochDay addDaysMs msPerDay; omega

theorem epochDay_startOfDayMs (t : Int) : epochDay (startOfDayMs t) = epochDay t := by
  unfold epochDay startOfDayMs msPerDay; omega

-- ── Shape of successfully parsed ISO dates ──────────────────────────────

theorem takeDigits_shape (n : Nat) :
    ∀ l ds rest, takeDigits n l = some (ds, rest) →
      l = ds ++ rest ∧ ∀ c ∈ ds, c.isDigit = true := by
  induction n with
  | zero =>
    intro l ds rest h
    simp only [takeDigits, Option.some.injEq, Prod.mk.injEq] at h
    obtain ⟨h1, h2⟩ := h
    subst h1; subst h2
    simp
  | succ n ih =>
    intro l ds rest h
    cases l with
    | nil => simp [takeDigits] at h
    | cons c cs =>
      simp only [takeDigits] at h
      split at h
      · cases ht : takeDigits n cs with
        | none => rw [ht] at h; simp at h
        | some p =>
          rw [ht] at h
          simp only [Option.map_some', Option.some.injEq, Prod.mk.injEq] at h
          obtain ⟨h1, h2⟩ := h
          obtain ⟨hl, hd⟩ := ih cs p.1 p.2 (by rw [ht])
          subst h1; subst h2
          constructor
          · rw [List.cons_append, ← hl]
          · intro x hx
            rcases List.mem_cons.mp hx with rfl | hx
            · assumption
            · exact hd x hx
      · exact Option.noConfusion h

theorem parseYMD_shape (l : List Char) (t : Int) (rest : List Char)
    (h : parseYMD l = some (t, rest)) :
    ∃ pre, l = pre ++ rest ∧ ∀ c ∈ pre, c.isDigit = true ∨ c = '-' := by
  unfold parseYMD at h
  split at h
  case _ ys r1 heq1 =>
    split at h
    case _ mos r2 heq2 =>
      split at h
      case _ ds rest2 heq3 =>
        dsimp only at h
        split at h
        · simp only [Option.some.injEq, Prod.mk.injEq] at h
          obtain ⟨-, h2⟩ := h
          subst h2
          obtain ⟨hl1, hd1⟩ := takeDigits_shape 4 l ys ('-' :: r1) heq1
          obtain ⟨hl2, hd2⟩ := takeDigits_shape 2 r1 mos ('-' :: r2) heq2
          obtain ⟨hl3, hd3⟩ := takeDigits_shape 2 r2 ds rest2 heq3
          refine ⟨ys ++ '-' :: mos ++ '-' :: ds, ?_, ?_⟩
          · rw [hl1, hl2, hl3]
            simp
          · intro c hc
            by_cases hdash : c = '-'
            · exact Or.inr hdash
            · refine Or.inl ?_
              simp only [List.mem_append, List.mem_cons, hdash, false_or,
                or_false] at hc
              rcases hc with (hc | hc) | hc
              · exact hd1 c hc
              · exact hd2 c hc
              · exact hd3 c hc
        · exact Option.noConfusion h
      all_goals exact Option.noConfusion h
    all_goals exact Option.noConfusion h
  all_goals exact Option.noConfusion h

theorem parseISO_no_colon (s : String) (t : Int) (h : parseISO s = some t) :
    containsChar s ':' = false := by
  unfold parseISO at h
  cases hp : parseYMD s.toList with
  | none => rw [hp] at h; exact Option.noConfusion h
  | some p =>
    rw [hp] at h
    obtain ⟨tv, rest⟩ := p
    cases rest with
    | cons c cs => simp at h
    | nil =>
      obtain ⟨pre, hpre, hchars⟩ := parseYMD_shape s.toList tv [] hp
      unfold containsChar
      rw [Bool.eq_false_iff]
      intro hc
      have hmem : ':' ∈ s.toList := by simpa using hc
      rw [hpre] at hmem
      simp only [List.append_nil] at hmem
      rcases hchars ':' hmem with hd | hd
      · simp [Char.isDigit] at hd
      · exact absurd hd (by decide)

-- ── C3: malformed date expressions do not fail ──────────────────────────

/-- C3 (amended): the resolver never raises anything — a malformed
expression (non-empty, no colon, not `today`/`weekend`, not a valid ISO
date) produces a `DateRange` whose bounds are Invalid Dates, instead of an
`InvalidDateExpression` failure (no such error exists in the program). -/
theorem getDateRange_malformed (now : Int) (s : String)
    (h0 : s ≠ "") (h1 : containsChar s ':' = false)
    (h2 : s ≠ "today") (h3 : s ≠ "weekend") (h4 : parseISO s = none) :
    getDateRange now (some s) = ⟨none, none⟩ := by
  unfold getDateRange
  rw [if_neg (by simp [truthyS, h0])]
  simp only [Option.getD_some]
  rw [if_neg (by simp [h1]), if_neg h2, if_neg h3, h4]
  rfl

/-- C3 counterexample: for the malformed expression `"tomorrow"` the
resolver returns a range value (of Invalid Dates) — it does not fail. -/
theorem c3_counterexample :
    getDateRange 0 (some "tomorrow") = ⟨none, none⟩ := by decide

theorem getDateRange_malformed_witness :
    parseISO "next-week" = none ∧ getDateRange 0 (some "next-week") = ⟨none, none⟩ :=
  ⟨by decide, getDateRange_malformed 0 "next-week" (by decide) (by decide)
    (by decide) (by decide) (by decide)⟩

-- ── C4: ordering of the resolved range ──────────────────────────────────

theorem splitOnChar_no_sep (sep : Char) (l : List Char) (h : sep ∉ l) :
    splitOnChar sep l = [l] := by
  induction l with
  | nil => rfl
  | cons c cs ih =>
    rw [splitOnChar]
    have hc : ¬(c = sep) := fun hh => h (by simp [hh])
    rw [if_neg hc, ih (fun hh => h (by simp [hh]))]

theorem splitOnChar_append_cons (sep : Char) (la lb : List Char) (h : sep ∉ la) :
    splitOnChar sep (la ++ sep :: lb) = la :: splitOnChar sep lb := by
  induction la with
  | nil => simp [splitOnChar]
  | cons c cs ih =>
    rw [List.cons_append, splitOnChar]
    have hc : ¬(c = sep) := fun hh => h (by simp [hh])
    rw [if_neg hc, ih (fun hh => h (by simp [hh]))]

theorem mkToList (s : String) : String.mk s.toList = s := by
  cases s
  rfl

theorem toList_colon_append (a b : String) :
    (a ++ ":" ++ b).toList = a.toList ++ ':' :: b.toList := by
  show (a ++ ":" ++ b).data = a.data ++ ':' :: b.data
  rw [String.data_append, String.data_append]
  rw [show (":" : String).data = [':'] from rfl]
  simp

theorem not_mem_of_containsChar_false {s : String} {c : Char}
    (h : containsChar s c = false) : c ∉ s.toList := by
  unfold containsChar at h
  intro hm
  rw [Bool.eq_false_iff] at h
  exact h (by simpa using hm)

/-- C4 (amended): `start ≤ end` holds for the default window, `today`,
`weekend`, and a single valid ISO date, and for the colon-joined pair form
exactly when the first date does not exceed the second; the inverted pair
yields `start > end` (see the counterexample). -/
theorem getDateRange_ordered :
    (∀ now, rangeOrdered (getDateRange now none))
    ∧ (∀ now, rangeOrdered (getDateRange now (some "today")))
    ∧ (∀ now, rangeOrdered (getDateRange now (some "weekend")))
    ∧ (∀ now s t, parseISO s = some t → rangeOrdered (getDateRange now (some s)))
    ∧ (∀ now a b ta tb, parseISO a = some ta → parseISO b = some tb → ta ≤ tb →
        rangeOrdered (getDateRange now (some (a ++ ":" ++ b)))) := by
  have horder : ∀ x y : Int, x ≤ y → startOfDayMs x ≤ endOfDayMs y := by
    intro x y h
    exact startOfDayMs_le_endOfDayMs_of_le h
  refine ⟨?_, ?_, ?_, ?_, ?_⟩
  · intro now s e hs he
    simp only [getDateRange, truthyS] at hs he
    injection hs with hs
    injection he with he
    subst hs; subst he
    exact horder _ _ (by unfold addDaysMs msPerDay; omega)
  · intro now s e hs he
    have hr : getDateRange now (some "today") =
        ⟨some (startOfDayMs now), some (endOfDayMs now)⟩ := rfl
    rw [hr] at hs he
    injection hs with hs
    injection he with he
    subst hs; subst he
    exact horder _ _ le_rfl
  · intro now s e hs he
    have hr : getDateRange now (some "weekend") =
        ⟨some (startOfDayMs (addDaysMs now (weekendOffset now))),
         some (endOfDayMs (addDaysMs (addDaysMs now (weekendOffset now)) 1))⟩ := rfl
    rw [hr] at hs he
    injection hs with hs
    injection he with he
    subst hs; subst he
    exact horder _ _ (by unfold addDaysMs msPerDay; omega)
  · intro now str t h s e hs he
    have h0 : str ≠ "" := by
      intro hh; subst hh; exact Option.noConfusion ((by decide : parseISO "" = none) ▸ h)
    have h2 : str ≠ "today" := by
      intro hh; subst hh; exact Option.noConfusion ((by decide : parseISO "today" = none) ▸ h)
    have h3 : str ≠ "weekend" := by
      intro hh; subst hh; exact Option.noConfusion ((by decide : parseISO "weekend" = none) ▸ h)
    have h1 := parseISO_no_colon str t h
    unfold getDateRange at hs he
    rw [if_neg (by simp [truthyS, h0])] at hs he
    simp only [Option.getD_some] at hs he
    rw [if_neg (by simp [h1]), if_neg h2, if_neg h3, h] at hs he
    simp only [Option.map_some'] at hs he
    injection hs with hs
    injection he with he
    subst hs; subst he
    exact horder _ _ le_rfl
  · intro now a b ta tb ha hb htab s e hs he
    have hna := not_mem_of_containsChar_false (parseISO_no_colon a ta ha)
    have hnb := not_mem_of_containsChar_false (parseISO_no_colon b tb hb)
    have hds : (a ++ ":" ++ b).toList = a.toList ++ ':' :: b.toList :=
      toList_colon_append a b
    have htr : truthyS (some (a ++ ":" ++ b)) = true := by
      simp only [truthyS, ne_eq, decide_eq_true_eq]
      intro hh
      have : (a ++ ":" ++ b).toList = [] := by rw [hh]; rfl
      rw [hds] at this
      simp at this
    have hcont : containsChar (a ++ ":" ++ b) ':' = true := by
      unfold containsChar
      rw [hds]
      simp
    unfold getDateRange at hs he
    rw [if_neg (by simp [htr])] at hs he
    simp only [Option.getD_some] at hs he
    rw [if_pos (by simp [hcont])] at hs he
    rw [hds, splitOnChar_append_cons ':' a.toList b.toList hna,
      splitOnChar_no_sep ':' b.toList hnb] at hs he
    simp only [List.headD_cons, List.drop_succ_cons, List.drop_zero, mkToList] at hs he
    rw [ha] at hs
    rw [hb] at he
    simp only [Option.map_some'] at hs he
    injection hs with hs
    injection he with he
    subst hs; subst he
    exact horder _ _ htab

/-- C4 counterexample: the colon form with the second date before the
first yields a range with `start > end` (2026-02-17 00:00 … 2026-02-10
23:59:59.999), refuting `start ≤ end` for every accepted input. -/
theorem c4_counterexample :
    getDateRange 0 (some "2026-02-17:2026-02-10") =
      ⟨some 1771286400000, some 1770767999999⟩
    ∧ (1770767999999 : Int) < 1771286400000 := by decide

theorem getDateRange_ordered_witness :
    parseISO "2026-02-10" = some 1770681600000
    ∧ (1770681600000 : Int) ≤ 1771372799999 :=
  ⟨by decide,
   (getDateRange_ordered.2.2.2.2 0 "2026-02-10" "2026-02-17" 1770681600000
      1771286400000 (by decide) (by decide) (by decide)) 1770681600000 1771372799999
      (by decide) (by decide)⟩

-- ── C7: the weekend branch ──────────────────────────────────────────────

/-- C7: `resolve("weekend")` yields start-of-day of `now + k` days and
end-of-day of the following day, where
`k = ((6 - weekday(now) + 7) mod 7) or 7`; the start day is a Saturday,
the end day a Sunday, and on a Saturday (`weekday = 6`) the offset is a
full week, i.e. the *next* Saturday. -/
theorem getDateRange_weekend (now : Int) :
    getDateRange now (some "weekend") =
      ⟨some (startOfDayMs (addDaysMs now (weekendOffset now))),
       some (endOfDayMs (addDaysMs (addDaysMs now (weekendOffset now)) 1))⟩
    ∧ jsGetDay (startOfDayMs (addDaysMs now (weekendOffset now))) = 6
    ∧ jsGetDay (addDaysMs (addDaysMs now (weekendOffset now)) 1) = 0
    ∧ (jsGetDay now = 6 → weekendOffset now = 7) := by
  have hwo : weekendOffset now =
      if (6 - jsGetDay now + 7) % 7 = 0 then 7 else (6 - jsGetDay now + 7) % 7 := rfl
  refine ⟨rfl, ?_, ?_, ?_⟩
  · rw [jsGetDay, epochDay_startOfDayMs, epochDay_addDays, hwo]
    unfold jsGetDay epochDay msPerDay
    split
    all_goals omega
  · have h1 : addDaysMs (addDaysMs now (weekendOffset now)) 1 =
        addDaysMs now (weekendOffset now + 1) := by
      unfold addDaysMs msPerDay; ring
    rw [h1, jsGetDay, epochDay_addDays, hwo]
    unfold jsGetDay epochDay msPerDay
    split
    all_goals omega
  · intro h6
    rw [hwo, h6]
    norm_num

-- ── Trimming lemmas ─────────────────────────────────────────────────────

theorem dropWhile_dropWhile (p : Char → Bool) (l : List Char) :
    (l.dropWhile p).dropWhile p = l.dropWhile p := by
  induction l with
  | nil => rfl
  | cons c cs ih =>
    by_cases hc : p c = true
    · rw [List.dropWhile_cons, if_pos hc]
      exact ih
    · rw [List.dropWhile_cons, if_neg hc, List.dropWhile_cons, if_neg hc]

theorem jsTrimL_idem (l : List Char) : jsTrimL (jsTrimL l) = jsTrimL l := by
  unfold jsTrimL
  set A := l.dropWhile isWs with hA
  set B := A.reverse.dropWhile isWs with hB
  have hAfix : A.dropWhile isWs = A := dropWhile_dropWhile isWs l
  have h1 : B.reverse.dropWhile isWs = B.reverse := by
    have hpre : B.reverse <+: A := by
      rw [← A.reverse_reverse]
      exact List.reverse_prefix.mpr (hB ▸ List.dropWhile_suffix isWs)
    obtain ⟨r, hr⟩ := hpre
    cases hBr : B.reverse with
    | nil => rfl
    | cons c cs =>
      rw [hBr] at hr
      have hcne : ¬(isWs c = true) := by
        intro hcw
        rw [← hr, List.cons_append, List.dropWhile_cons, if_pos hcw] at hAfix
        have hlen := ((List.dropWhile_suffix (l := cs ++ r) isWs).length_le)
        rw [hAfix] at hlen
        simp at hlen
      rw [List.dropWhile_cons, if_neg hcne]
  rw [h1, List.reverse_reverse, hB, dropWhile_dropWhile]

theorem jsTrimS_idem (s : String) : jsTrimS (jsTrimS s) = jsTrimS s := by
  unfold jsTrimS
  show String.mk (jsTrimL (String.mk (jsTrimL s.toList)).toList) = _
  rw [show (String.mk (jsTrimL s.toList)).toList = jsTrimL s.toList from rfl]
  rw [jsTrimL_idem]

theorem length_pos_of_three {s : String} (h : 3 ≤ s.length) : s ≠ "" := by
  intro hh
  subst hh
  simp at h

-- ── The giessen.de name stage ───────────────────────────────────────────

theorem giessenSlugName_trimmed (href : String) (n : String)
    (h : giessenSlugName href = Except.ok (some n)) : jsTrimS n = n := by
  unfold giessenSlugName at h
  split at h
  · exact Option.noConfusion (Except.ok.inj h)
  · split at h
    · exact Except.noConfusion h
    · have := Option.some.inj (Except.ok.inj h)
      rw [← this, jsTrimS_idem]

theorem giessenFallbackName_trimmed (r : String) :
    jsTrimS (giessenFallbackName r) = giessenFallbackName r := by
  unfold giessenFallbackName
  rw [jsTrimS_idem]

/-- Any name that survives the giessen.de name stage has length at least 3
and is already trimmed. -/
theorem giessenNameStage_post (c : GiessenCand) (nm : String)
    (h : giessenNameStage c = Except.ok (some nm)) :
    3 ≤ nm.length ∧ jsTrimS nm = nm := by
  unfold giessenNameStage at h
  cases hsn : giessenSlugName c.href with
  | error e =>
    rw [hsn] at h
    exact Except.noConfusion h
  | ok name1 =>
    rw [hsn] at h
    simp only [bind, Except.bind] at h
    cases name1 with
    | none =>
      simp only at h
      split at h
      · exact Option.noConfusion (Except.ok.inj h)
      · split at h
        · exact Option.noConfusion (Except.ok.inj h)
        · split at h
          · exact Option.noConfusion (Except.ok.inj h)
          · have hnm := Option.some.inj (Except.ok.inj h)
            constructor
            · rw [← hnm]; omega
            · rw [← hnm]; exact giessenFallbackName_trimmed _
    | some n =>
      simp only at h
      by_cases h3 : n.length < 3
      · rw [if_pos h3] at h
        split at h
        · exact Option.noConfusion (Except.ok.inj h)
        · split at h
          · exact Option.noConfusion (Except.ok.inj h)
          · split at h
            · exact Option.noConfusion (Except.ok.inj h)
            · have hnm := Option.some.inj (Except.ok.inj h)
              constructor
              · rw [← hnm]; omega
              · rw [← hnm]; exact giessenFallbackName_trimmed _
      · rw [if_neg h3] at h
        split at h
        · exact Option.noConfusion (Except.ok.inj h)
        · split at h
          · exact Option.noConfusion (Except.ok.inj h)
          · split at h
            · exact Option.noConfusion (Except.ok.inj h)
            · have hnm := Option.some.inj (Except.ok.inj h)
              constructor
              · rw [← hnm]; omega
              · rw [← hnm]; exact giessenSlugName_trimmed c.href n hsn

/-- Every event the giessen.de item pipeline emits carries the final name
built from the surviving stage name, and the fixed category `"other"`. -/
theorem giessenProcessItem_shape (sTs eTs : JsNum) (c : GiessenCand) (ev : Event)
    (h : giessenProcessItem sTs eTs c = Except.ok (some ev)) :
    ∃ nm, giessenNameStage c = Except.ok (some nm)
      ∧ ev.name = some (let p := jsTrimS (prefixBeforeDate nm)
                        if p = "" then nm else p)
      ∧ ev.type = "other" ∧ ev.source = "giessen.de" := by
  unfold giessenProcessItem at h
  cases hsn : giessenNameStage c with
  | error e =>
    rw [hsn] at h
    exact Except.noConfusion h
  | ok nameO =>
    rw [hsn] at h
    simp only [bind, Except.bind] at h
    cases nameO with
    | none => exact Option.noConfusion (Except.ok.inj h)
    | some nm =>
      refine ⟨nm, rfl, ?_⟩
      simp only at h
      split at h
      · have hev := Option.some.inj (Except.ok.inj h)
        rw [← hev]
        exact ⟨rfl, rfl, rfl⟩
      · exact Option.noConfusion (Except.ok.inj h)

-- ── C8: non-empty names at the adapter boundary ─────────────────────────

/-- C8 (amended): the municipal static-HTML adapter does guarantee the name
invariant — every event it emits has a non-empty name that is fixed under
trimming — but the structured-API adapter maps `name` through without any
check, so a record with a missing name leaves it unchanged (see the
counterexample). -/
theorem giessen_name_nonempty (sTs eTs : JsNum) (c : GiessenCand) (ev : Event)
    (h : giessenProcessItem sTs eTs c = Except.ok (some ev)) :
    ∃ nm, ev.name = some nm ∧ nm ≠ "" ∧ jsTrimS nm = nm := by
  obtain ⟨nm0, hstage, hname, -⟩ := giessenProcessItem_shape sTs eTs c ev h
  obtain ⟨hlen, htrim⟩ := giessenNameStage_post c nm0 hstage
  by_cases hp : jsTrimS (prefixBeforeDate nm0) = ""
  · refine ⟨nm0, ?_, length_pos_of_three hlen, htrim⟩
    rw [hname]
    simp [hp]
  · refine ⟨jsTrimS (prefixBeforeDate nm0), ?_, hp, jsTrimS_idem _⟩
    rw [hname]
    simp [hp]

/-- C8 counterexample: the Ticketmaster mapping passes a nameless response
item straight into the returned event list — nothing drops it inside the
adapter. -/
theorem c8_counterexample :
    (tmMapEvents [tmBad]).map (fun e => e.name) = [none]
    ∧ tmMapEvents [tmBad] ≠ [] := by decide

theorem giessen_name_nonempty_witness :
    giessenProcessItem (JsNum.fin 0) (JsNum.fin 1999999999999) g8cand =
      Except.ok (some g8ev)
    ∧ ∃ nm, g8ev.name = some nm ∧ nm ≠ "" ∧ jsTrimS nm = nm :=
  ⟨rfl, giessen_name_nonempty (JsNum.fin 0) (JsNum.fin 1999999999999) g8cand g8ev rfl⟩

-- ── C9: the giessen.de date filter ──────────────────────────────────────

/-- C9: once an item survives the name stage, an item *without* an
extracted date is always kept, and an item with extracted date `d` is kept
exactly when its effective end (its own end, else `d` itself) is not before
the range start and `d` is not after the range end — the JS comparisons
`eventEndTs < startTs` and `eventTs > endTs`, under which any `NaN` operand
compares false. -/
theorem giessen_date_filter (sTs eTs : JsNum) (c : GiessenCand) (nm : String)
    (hname : giessenNameStage c = Except.ok (some nm)) :
    ((giessenDates (collapseTrim c.text)).1 = none →
      ∃ ev, giessenProcessItem sTs eTs c = Except.ok (some ev))
    ∧ (∀ d, (giessenDates (collapseTrim c.text)).1 = some d →
        ((∃ ev, giessenProcessItem sTs eTs c = Except.ok (some ev)) ↔
          (jsLtB (giessenEffEnd d (giessenDates (collapseTrim c.text)).2) sTs = false
           ∧ jsLtB eTs (jsTimeOf d) = false))) := by
  have hrun : giessenProcessItem sTs eTs c =
      (let keep : Bool :=
         match (giessenDates (collapseTrim c.text)).1 with
         | some d =>
           !(jsLtB (giessenEffEnd d (giessenDates (collapseTrim c.text)).2) sTs
             || jsLtB eTs (jsTimeOf d))
         | none => true
       if keep then
         Except.ok (some
           { name := some (let p := jsTrimS (prefixBeforeDate nm)
                           if p = "" then nm else p)
             date := (giessenDates (collapseTrim c.text)).1
             venue := none
             address := some "Gießen"
             type := "other"
             url := if c.href = "" then none
                    else some (if startsWithL "http".toList c.href.toList then c.href
                               else "https://www.giessen.de" ++ c.href)
             price := none
             source := "giessen.de"
             description := giessenDescription (collapseTrim c.text) })
       else Except.ok none) := by
    unfold giessenProcessItem
    rw [hname]
    rfl
  constructor
  · intro hd
    rw [hrun]
    simp only [hd]
    exact ⟨_, rfl⟩
  · intro d hd
    rw [hrun]
    simp only [hd]
    constructor
    · rintro ⟨ev, hev⟩
      by_cases hk : (jsLtB (giessenEffEnd d (giessenDates (collapseTrim c.text)).2) sTs
          || jsLtB eTs (jsTimeOf d)) = true
      · rw [hk] at hev
        simp only [Bool.not_true, Bool.false_eq_true, if_false] at hev
        exact absurd (Except.ok.inj hev) (fun hh => Option.noConfusion hh)
      · rw [Bool.or_eq_true] at hk
        push_neg at hk
        exact ⟨Bool.eq_false_iff.mpr hk.1, Bool.eq_false_iff.mpr hk.2⟩
    · rintro ⟨h1, h2⟩
      rw [h1, h2]
      exact ⟨_, rfl⟩

theorem giessen_date_filter_witness :
    giessenNameStage g9cand = Except.ok (some "Konzert im Park")
    ∧ ∃ ev, giessenProcessItem (JsNum.fin 0) (JsNum.fin 1999999999999) g9cand =
        Except.ok (some ev) :=
  ⟨rfl,
   ((giessen_date_filter (JsNum.fin 0) (JsNum.fin 1999999999999) g9cand
      "Konzert im Park" rfl).2 "2026-02-25T20:00:00" rfl).mpr ⟨rfl, rfl⟩⟩

-- ── C10: the category filter ────────────────────────────────────────────

/-- C10 (amended): with a category filter `t ≠ "all"` the kept events are
exactly those typed `t` or `"other"`, and every `"other"`-typed event
survives; the giessen.de and Deskline adapters type every event `"other"`,
so the filter never removes their events — but the Meetup scraper types its
events `"meetup"`, which any other specific filter removes (see the
counterexample). -/
theorem typeFilter_keeps (t : String) (events : List Event) (h : t ≠ "all") :
    typeFilter t events = events.filter (fun e => e.type = t ∨ e.type = "other")
    ∧ (∀ e ∈ events, e.type = "other" → e ∈ typeFilter t events)
    ∧ (∀ city raws e, e ∈ desklineNormalize city raws → e.type = "other")
    ∧ (∀ sTs eTs c ev, giessenProcessItem sTs eTs c = Except.ok (some ev) →
        ev.type = "other") := by
  have h1 : typeFilter t events =
      events.filter (fun e => e.type = t ∨ e.type = "other") := by
    unfold typeFilter
    rw [if_pos h]
  refine ⟨h1, ?_, ?_, ?_⟩
  · intro e he hother
    rw [h1, List.mem_filter]
    exact ⟨he, by simp [hother]⟩
  · intro city raws e he
    unfold desklineNormalize at he
    rcases List.mem_map.mp he with ⟨r, -, hre⟩
    rw [← hre]
  · intro sTs eTs c ev hev
    obtain ⟨nm, -, -, htype, -⟩ := giessenProcessItem_shape sTs eTs c ev hev
    exact htype

/-- C10 counterexample: the Meetup JSON-LD scraper emits its events with
category `"meetup"`, so a category filter (here `"music"`) removes a
scraped event — refuting "a category filter never removes any scraped
event". -/
theorem c10_counterexample :
    meetupMapLd [c10item] ≠ []
    ∧ (meetupMapLd [c10item]).map (fun e => e.type) = ["meetup"]
    ∧ typeFilter "music" (meetupMapLd [c10item]) = [] := by decide

theorem typeFilter_keeps_witness :
    ("music" : String) ≠ "all" ∧ c10wev ∈ typeFilter "music" [c10wev] :=
  ⟨by decide,
   (typeFilter_keeps "music" [c10wev] (by decide)).2.1 c10wev (by simp) rfl⟩

end GiEvents
